import Mathlib

/-!
Verification of the `miniball` crate (minimum enclosing ball).

The development shallowly embeds the two source modules that carry the
algorithm:

* `src/ball.rs` — the `Ball` entity with `contains`, `eq`, `cmp` and the
  circumscribed-ball solver `with_bounds`;
* `src/enclosing.rs` — Welzl's recursive algorithm `enclosing_points` /
  `enclosing_points_with_bounds` over a double-ended point sequence and a
  bounded boundary accumulator (`src/ovec.rs`, `src/deque.rs`).

Scalars are embedded two ways.  The bulk of the development instantiates the
generic scalar field `T : RealField` with the exact field `ℚ`, the reading
used by the specification for the exact-arithmetic claims; the only
non-field behaviours of the floating-point instances that are reachable on
this path (division by a zero squared distance inside `contains`) are spelled
out explicitly there.  A second, self-contained layer (`Fl`) models the
IEEE-style non-finite values (`±∞`, NaN) of the real `RealField` instances,
and is used for the claims about assertions on non-finite radii and points
and about `PartialEq`/`Ord` of `Ball`.

The double-ended sequence (`Deque`) is embedded as a `List` whose head is the
front of the deque; the boundary accumulator (`OVec`) as a `List` in
insertion order together with its capacity `D + 1`.
-/

set_option maxRecDepth 16000

namespace Miniball

/-- A point of dimension `D` over the exact scalar field: `OPoint<T, D>`. -/
abbrev Pt (D : ℕ) := Fin D → ℚ

/-- nalgebra's `dot` product on coordinate vectors. -/
def dot {D : ℕ} (x y : Pt D) : ℚ := ∑ i, x i * y i

/-- nalgebra's `norm_squared`: the dot product of a vector with itself. -/
def normSq {D : ℕ} (x : Pt D) : ℚ := dot x x

/-- Coordinates of a point as a list, used to state concrete evaluations. -/
def coords {D : ℕ} (p : Pt D) : List ℚ := (List.finRange D).map p

/-- The `Ball` struct of src/ball.rs: center and radius squared. -/
structure Ball (D : ℕ) where
  center : Pt D
  radius_squared : ℚ
deriving DecidableEq

/-- Executable determinant by Laplace expansion along the first row; proven
equal to `Matrix.det` (`detExec_eq`).  It stands in for the determinant test
of nalgebra's `try_inverse`, which the spec treats as an external
linear-algebra collaborator specified at its interface. -/
def detExec : (n : ℕ) → Matrix (Fin n) (Fin n) ℚ → ℚ
  | 0, _ => 1
  | n + 1, A =>
    ∑ j : Fin (n + 1), (-1 : ℚ) ^ (j : ℕ) * A 0 j * detExec n (A.submatrix Fin.succ j.succAbove)

/-- Executable adjugate via cofactors; proven equal to `Matrix.adjugate`
(`adjExec_eq`). -/
def adjExec (n : ℕ) (A : Matrix (Fin n) (Fin n) ℚ) : Matrix (Fin n) (Fin n) ℚ :=
  match n, A with
  | 0, _ => 1
  | n + 1, A =>
    Matrix.of fun i j => (-1 : ℚ) ^ ((j : ℕ) + i) * detExec n (A.submatrix j.succAbove i.succAbove)

/-- Model of nalgebra's `try_inverse` at its interface (spec §6 lists matrix
inversion among the external collaborators): over an exact field it succeeds
exactly on matrices with non-zero determinant and returns the inverse,
here computed executably as `det⁻¹ • adjugate`. -/
def tryInverse (n : ℕ) (A : Matrix (Fin n) (Fin n) ℚ) : Option (Matrix (Fin n) (Fin n) ℚ) :=
  if detExec n A = 0 then none else some ((detExec n A)⁻¹ • adjExec n A)

/-- The offset vectors `bounds[column + 1] - bounds[0]` of src/ball.rs
lines 82-89 (the padded `D × D` storage and its `D × length` view are a
representation detail of the fixed-size matrix type). -/
def offsets {D : ℕ} (p0 : Pt D) (rest : List (Pt D)) : Fin rest.length → Pt D :=
  fun j => rest.get j - p0

/-- The Gram matrix `points.column(row).dot(points.column(column)) * 2` of
src/ball.rs lines 90-97. -/
def gram {D : ℕ} (p0 : Pt D) (rest : List (Pt D)) :
    Matrix (Fin rest.length) (Fin rest.length) ℚ :=
  Matrix.of fun i j => dot (offsets p0 rest i) (offsets p0 rest j) * (1 + 1)

/-- The right-hand side `points.column(row).norm_squared()` of src/ball.rs
lines 98-105. -/
def rhsVec {D : ℕ} (p0 : Pt D) (rest : List (Pt D)) : Fin rest.length → ℚ :=
  fun i => normSq (offsets p0 rest i)

/-- The `D × length` matrix of offset columns, used to relate the Gram
matrix to a product `Aᵀ * A`. -/
def offMat {D : ℕ} (p0 : Pt D) (rest : List (Pt D)) : Matrix (Fin D) (Fin rest.length) ℚ :=
  Matrix.of fun d j => offsets p0 rest j d

/-- `T::is_finite` for the exact scalar field: every rational is finite, so
the guard of src/ball.rs line 114 always passes on this instantiation. -/
def ratIsFinite (_q : ℚ) : Bool := true

/-- `Ball::with_bounds` (src/ball.rs lines 77-119).  The guard mirrors
`bounds.len().checked_sub(1).filter(|&len| len <= D::USIZE)?`; on success the
center offset is `Σ c_j · offset_j`, the radius squared its squared norm
taken before translating by `bounds[0]`. -/
def with_bounds (D : ℕ) (bounds : List (Pt D)) : Option (Ball D) :=
  match bounds with
  | [] => none
  | p0 :: rest =>
    if rest.length ≤ D then
      match tryInverse rest.length (gram p0 rest) with
      | none => none
      | some inv =>
        let c := inv.mulVec (rhsVec p0 rest)
        let centerOff : Pt D := ∑ j, c j • offsets p0 rest j
        let rsq := normSq centerOff
        if ratIsFinite rsq then some ⟨p0 + centerOff, rsq⟩ else none
    else none

/-- `Ball::contains` (src/ball.rs lines 71-76) over the exact field, with
`eps` standing for `T::default_epsilon().sqrt()`.  The source computes
`radius_squared / norm_squared >= 1 - eps`; when the squared distance is `0`
the `RealField` instances yield `r / 0 = +∞` (true) for `r > 0` and
`0 / 0 = NaN` (false) for `r = 0`, which the zero branch spells out.  The
`assert!(norm_squared.is_finite())` of the source never fires over an exact
scalar field; its float-side behaviour is modelled by `FlBall.contains`. -/
def contains {D : ℕ} (eps : ℚ) (b : Ball D) (point : Pt D) : Bool :=
  let norm_squared := normSq (point - b.center)
  if norm_squared = 0 then decide (0 < b.radius_squared)
  else decide (1 - eps ≤ b.radius_squared / norm_squared)

/-- `Deque::pop_back`: split a list (head = front of the deque) into its
last element and the remainder. -/
def popBack {α : Type} : List α → Option (List α × α)
  | [] => none
  | [a] => some ([], a)
  | a :: b :: rest => (popBack (b :: rest)).map fun t => (a :: t.1, t.2)

/-- One invocation of `Enclosing::enclosing_points_with_bounds`
(src/enclosing.rs lines 172-206) as a state transformer on
`(points, bounds)`.  `cap` is the capacity of the boundary accumulator
(`OVec::is_full`, equal to `D + 1` for `OVec<_, DimNameSum<D, U1>>`), and
`fuel` a structural-termination bound; `run` agrees with the source
recursion whenever `points.length ≤ fuel` (`run_fuel_eq`).

The first arm mirrors `points.pop_back().filter(|_| !bounds.is_full())`
followed by `ball.filter(|ball| ball.contains(&point))`: the point popped
from the back is *discarded* when the accumulator is full.  The final inner
arm models the `.unwrap()` on `bounds.pop()`; it is unreachable because the
recursion restores the accumulator (`run_bounds`). -/
def run (D : ℕ) (eps : ℚ) (cap : ℕ) :
    ℕ → List (Pt D) → List (Pt D) → Option (Ball D) × List (Pt D) × List (Pt D)
  | 0, points, bounds => (with_bounds D bounds, points, bounds)
  | fuel + 1, points, bounds =>
    match popBack points with
    | none => (with_bounds D bounds, points, bounds)
    | some (points', point) =>
      if bounds.length = cap then
        (with_bounds D bounds, points', bounds)
      else
        let r1 := run D eps cap fuel points' bounds
        match Option.filter (fun ball => contains eps ball point) r1.1 with
        | some ball => (some ball, r1.2.1 ++ [point], r1.2.2)
        | none =>
          let r2 := run D eps cap fuel r1.2.1 (r1.2.2 ++ [point])
          match popBack r2.2.2 with
          | some (bounds', q) => (r2.1, q :: r2.2.1, bounds')
          | none => (r2.1, r2.2.1, [])

/-- `Enclosing::enclosing_points_with_bounds` itself: `run` at fuel
`points.length`, which suffices (`run_fuel_eq`). -/
def enclosing_points_with_bounds (D : ℕ) (eps : ℚ) (cap : ℕ)
    (points bounds : List (Pt D)) : Option (Ball D) × List (Pt D) × List (Pt D) :=
  run D eps cap points.length points bounds

/-- The two fatal conditions of `enclosing_points`: the
`assert!(!points.is_empty(), "empty point set")` precondition and the
`.expect("numerical instability")` after the retry loop. -/
inductive EncError where
  | invalidInput
  | numericalInstability
deriving DecidableEq

/-- The retry loop `(0..bounds.capacity()).find_map(..)` of
src/enclosing.rs lines 159-165: `n` attempts, each invoking the recursion on
the current (permuted) sequence and accumulator with the loop index unused;
exhaustion is the `expect("numerical instability")` panic. -/
def attempts (D : ℕ) (eps : ℚ) (cap : ℕ) :
    ℕ → List (Pt D) → List (Pt D) → Except EncError (Ball D × List (Pt D) × List (Pt D))
  | 0, _, _ => .error .numericalInstability
  | n + 1, points, bounds =>
    let r := enclosing_points_with_bounds D eps cap points bounds
    match r.1 with
    | some ball => .ok (ball, r.2)
    | none => attempts D eps cap n r.2.1 r.2.2

/-- `Enclosing::enclosing_points` (src/enclosing.rs lines 151-166): assert
the sequence non-empty, then run `bounds.capacity() = D + 1` attempts of the
recursion with a fresh accumulator of capacity `D + 1`.  Returns the ball
and the permuted sequence (the source mutates the sequence in place). -/
def enclosing_points (D : ℕ) (eps : ℚ) (points : List (Pt D)) :
    Except EncError (Ball D × List (Pt D)) :=
  if points.isEmpty then .error .invalidInput
  else (attempts D eps (D + 1) (D + 1) points []).map fun r => (r.1, r.2.1)

/-- Modelled from the spec (§4.3, claim C4): a top-level driver whose
boundary-accumulator capacity "starts at the natural maximum (D+1) and
[...] is retried with capacities stepped down [...] until one succeeds or
all capacities (including zero) are exhausted".  Defined solely to compare
the spec's description with the source driver, which keeps the capacity at
`D + 1` for every attempt. -/
def specSteps (D : ℕ) (eps : ℚ) :
    (cap : ℕ) → List (Pt D) → List (Pt D) → Except EncError (Ball D × List (Pt D) × List (Pt D))
  | 0, points, bounds =>
    let r := enclosing_points_with_bounds D eps 0 points bounds
    match r.1 with
    | some ball => .ok (ball, r.2)
    | none => .error .numericalInstability
  | cap + 1, points, bounds =>
    let r := enclosing_points_with_bounds D eps (cap + 1) points bounds
    match r.1 with
    | some ball => .ok (ball, r.2)
    | none => specSteps D eps cap r.2.1 r.2.2

/-- Modelled from the spec (§4.3, claim C4): the stepped-capacity driver,
starting at capacity `D + 1`. -/
def spec_enclosing_points (D : ℕ) (eps : ℚ) (points : List (Pt D)) :
    Except EncError (Ball D × List (Pt D)) :=
  if points.isEmpty then .error .invalidInput
  else (specSteps D eps (D + 1) points []).map fun r => (r.1, r.2.1)

/-- The state of the point sequence and accumulator before the `k`-th
attempt of the retry loop (attempt `0` sees the caller's sequence and the
fresh accumulator). -/
def attemptState (D : ℕ) (eps : ℚ) (cap : ℕ) (points bounds : List (Pt D)) :
    ℕ → List (Pt D) × List (Pt D)
  | 0 => (points, bounds)
  | k + 1 =>
    let s := attemptState D eps cap points bounds k
    let r := enclosing_points_with_bounds D eps cap s.1 s.2
    (r.2.1, r.2.2)

/-- The ball (if any) produced by the `k`-th attempt of the retry loop. -/
def attemptBall (D : ℕ) (eps : ℚ) (cap : ℕ) (points bounds : List (Pt D)) (k : ℕ) :
    Option (Ball D) :=
  (enclosing_points_with_bounds D eps cap
    (attemptState D eps cap points bounds k).1 (attemptState D eps cap points bounds k).2).1

/-- Decidable equality for `Except`, by cases on the constructors. -/
instance {e a : Type} [DecidableEq e] [DecidableEq a] : DecidableEq (Except e a) := fun x y =>
  match x, y with
  | .ok u, .ok v => decidable_of_iff (u = v) (by simp)
  | .error u, .error v => decidable_of_iff (u = v) (by simp)
  | .ok _, .error _ => isFalse (by simp)
  | .error _, .ok _ => isFalse (by simp)

/-- IEEE-style scalar of the real `RealField` instances (`f32`/`f64`) with
exact finite values: a finite rational, the two infinities, or NaN.
Rounding is irrelevant for the claims modelled with it (assertions on
non-finite values and comparisons), so finite arithmetic is exact. -/
inductive Fl where
  | fin (q : ℚ)
  | inf
  | ninf
  | nan
deriving DecidableEq

namespace Fl

/-- `is_finite` of the scalar type. -/
def is_finite : Fl → Bool
  | fin _ => true
  | _ => false

/-- IEEE subtraction. -/
def sub : Fl → Fl → Fl
  | nan, _ => nan
  | _, nan => nan
  | fin a, fin b => fin (a - b)
  | fin _, inf => ninf
  | fin _, ninf => inf
  | inf, fin _ => inf
  | ninf, fin _ => ninf
  | inf, inf => nan
  | inf, ninf => inf
  | ninf, inf => ninf
  | ninf, ninf => nan

/-- IEEE addition. -/
def add : Fl → Fl → Fl
  | nan, _ => nan
  | _, nan => nan
  | fin a, fin b => fin (a + b)
  | fin _, inf => inf
  | fin _, ninf => ninf
  | inf, fin _ => inf
  | ninf, fin _ => ninf
  | inf, inf => inf
  | inf, ninf => nan
  | ninf, inf => nan
  | ninf, ninf => ninf

/-- IEEE multiplication (`0 * ±∞ = NaN`). -/
def mul : Fl → Fl → Fl
  | nan, _ => nan
  | _, nan => nan
  | fin a, fin b => fin (a * b)
  | fin a, inf => if 0 < a then inf else if a < 0 then ninf else nan
  | fin a, ninf => if 0 < a then ninf else if a < 0 then inf else nan
  | inf, fin a => if 0 < a then inf else if a < 0 then ninf else nan
  | ninf, fin a => if 0 < a then ninf else if a < 0 then inf else nan
  | inf, inf => inf
  | inf, ninf => ninf
  | ninf, inf => ninf
  | ninf, ninf => inf

/-- IEEE division with a positive-zero denominator convention
(`r / 0 = ±∞` for `r ≠ 0`, `0 / 0 = NaN`, `±∞ / ±∞ = NaN`). -/
def div : Fl → Fl → Fl
  | nan, _ => nan
  | _, nan => nan
  | fin a, fin b =>
    if b = 0 then (if a = 0 then nan else if 0 < a then inf else ninf)
    else fin (a / b)
  | fin _, inf => fin 0
  | fin _, ninf => fin 0
  | inf, fin a => if 0 ≤ a then inf else ninf
  | ninf, fin a => if 0 ≤ a then ninf else inf
  | inf, inf => nan
  | inf, ninf => nan
  | ninf, inf => nan
  | ninf, ninf => nan

/-- IEEE `>=`: false whenever NaN is involved. -/
def ge : Fl → Fl → Bool
  | nan, _ => false
  | _, nan => false
  | fin a, fin b => decide (b ≤ a)
  | fin _, inf => false
  | fin _, ninf => true
  | inf, _ => true
  | ninf, ninf => true
  | ninf, _ => false

/-- IEEE `partial_cmp`: `none` exactly when NaN is involved. -/
def cmpOpt : Fl → Fl → Option Ordering
  | nan, _ => none
  | _, nan => none
  | fin a, fin b => some (cmp a b)
  | fin _, inf => some .lt
  | fin _, ninf => some .gt
  | inf, fin _ => some .gt
  | inf, inf => some .eq
  | inf, ninf => some .gt
  | ninf, fin _ => some .lt
  | ninf, inf => some .lt
  | ninf, ninf => some .eq

/-- IEEE `==`: NaN is not equal to anything, infinities equal themselves. -/
def beq : Fl → Fl → Bool
  | nan, _ => false
  | _, nan => false
  | fin a, fin b => decide (a = b)
  | inf, inf => true
  | ninf, ninf => true
  | _, _ => false

end Fl

/-- A point with IEEE-style coordinates. -/
abbrev FlPt (D : ℕ) := Fin D → Fl

/-- `norm_squared` of an IEEE-style coordinate vector: the sum of the
squares of the coordinates (summation order only matters for rounding,
which this model does not track). -/
def flNormSq {D : ℕ} (x : FlPt D) : Fl :=
  ((List.finRange D).map fun i => Fl.mul (x i) (x i)).foldr Fl.add (Fl.fin 0)

/-- The `Ball` struct over IEEE-style scalars, for the claims about
non-finite values. -/
structure FlBall (D : ℕ) where
  center : FlPt D
  radius_squared : Fl
deriving DecidableEq

namespace FlBall

/-- `Ball::contains` (src/ball.rs lines 71-76) over IEEE-style scalars:
compute `norm_squared = (point - center).norm_squared()`, assert it is
finite (`Except.error` models the panic `"infinite point"`), then return
`radius_squared / norm_squared >= 1 - eps`.  No assertion inspects
`radius_squared`. -/
def contains {D : ℕ} (eps : ℚ) (b : FlBall D) (point : FlPt D) : Except String Bool :=
  let norm_squared := flNormSq fun i => Fl.sub (point i) (b.center i)
  if norm_squared.is_finite then
    .ok (Fl.ge (Fl.div b.radius_squared norm_squared) (Fl.sub (Fl.fin 1) (Fl.fin eps)))
  else .error ("infinite point")

/-- `PartialEq::eq` for `Ball` (src/ball.rs lines 36-42): assert both radii
finite (`Except.error` models the panic `"infinite ball"`), then compare the
radii; the centers are never inspected. -/
def eq {D : ℕ} (b1 b2 : FlBall D) : Except String Bool :=
  if b1.radius_squared.is_finite && b2.radius_squared.is_finite then
    .ok (Fl.beq b1.radius_squared b2.radius_squared)
  else .error ("infinite ball")

/-- `Ord::cmp` for `Ball` (src/ball.rs lines 60-64):
`partial_cmp` of the radii, with `.expect("infinite ball")` modelled as
`Except.error`; the centers are never inspected. -/
def cmp {D : ℕ} (b1 b2 : FlBall D) : Except String Ordering :=
  match Fl.cmpOpt b1.radius_squared b2.radius_squared with
  | some o => .ok o
  | none => .error ("infinite ball")

end FlBall

/-- One-dimensional point with the given coordinate. -/
def q1 (x : ℚ) : Pt 1 := fun _ => x

/-- Two-dimensional point with the given coordinates. -/
def q2 (x y : ℚ) : Pt 2 := ![x, y]

/-- Concrete two-dimensional input (front to back of the deque) on which the
engine discards a point that the returned ball does not contain. -/
def c1pts : List (Pt 2) := [q2 2 0, q2 1 0, q2 1 2, q2 3 1, q2 0 3]

/-- Concrete one-dimensional input on which the engine destroys a point. -/
def c2pts : List (Pt 1) := [q1 0, q1 1, q1 2]

/-- A duplicated point: the circumscribed-ball solver is singular on the
pair, so every attempt of the top-level driver fails. -/
def c4pts : List (Pt 1) := [q1 0, q1 0]

/-- A ball with a non-finite radius and a finite center. -/
def c8ball : FlBall 1 := ⟨fun _ => .fin 0, .inf⟩

attribute [local semireducible] Rat.mul Rat.inv Rat.add Rat.sub

theorem detExec_eq (n : ℕ) (A : Matrix (Fin n) (Fin n) ℚ) : detExec n A = A.det := by
  induction n with
  | zero => simp [detExec, Matrix.det_fin_zero]
  | succ n ih =>
    rw [Matrix.det_succ_row_zero, detExec]
    exact Finset.sum_congr rfl fun j _ => by rw [ih]

theorem adjExec_eq (n : ℕ) (A : Matrix (Fin n) (Fin n) ℚ) : adjExec n A = A.adjugate := by
  match n with
  | 0 => exact Subsingleton.elim _ _
  | n + 1 =>
    ext i j
    rw [Matrix.adjugate_fin_succ_eq_det_submatrix]
    simp [adjExec, detExec_eq]

theorem tryInverse_eq_none_iff (n : ℕ) (A : Matrix (Fin n) (Fin n) ℚ) :
    tryInverse n A = none ↔ A.det = 0 := by
  by_cases h : A.det = 0 <;> simp [tryInverse, detExec_eq, h]

theorem tryInverse_mulVec {n : ℕ} {A M : Matrix (Fin n) (Fin n) ℚ}
    (h : tryInverse n A = some M) (b : Fin n → ℚ) : A.mulVec (M.mulVec b) = b := by
  rw [tryInverse, detExec_eq] at h
  split at h
  · exact absurd h (by simp)
  · rename_i hdet
    obtain rfl : A.det⁻¹ • A.adjugate = M := by
      simpa [adjExec_eq, detExec_eq] using congrArg (fun o => o.getD M) h
    rw [Matrix.mulVec_mulVec, Matrix.mul_smul, Matrix.mul_adjugate, smul_smul,
      inv_mul_cancel₀ hdet, one_smul, Matrix.one_mulVec]

theorem dot_smul_right {D : ℕ} (c : ℚ) (x y : Pt D) : dot x (c • y) = c * dot x y := by
  rw [dot, dot, Finset.mul_sum]
  exact Finset.sum_congr rfl fun i _ => by simp [Pi.smul_apply, smul_eq_mul]; ring

theorem dot_sum_right {D : ℕ} {k : ℕ} (x : Pt D) (f : Fin k → Pt D) :
    dot x (∑ j, f j) = ∑ j, dot x (f j) := by
  rw [dot]
  simp only [Finset.sum_apply, Finset.mul_sum]
  rw [Finset.sum_comm]
  exact Finset.sum_congr rfl fun j _ => rfl

theorem normSq_sub {D : ℕ} (x y : Pt D) :
    normSq (x - y) = normSq x - 2 * dot x y + normSq y := by
  simp only [normSq, dot, Pi.sub_apply, Finset.mul_sum]
  rw [← Finset.sum_sub_distrib, ← Finset.sum_add_distrib]
  exact Finset.sum_congr rfl fun i _ => by ring

theorem normSq_neg {D : ℕ} (x : Pt D) : normSq (-x) = normSq x := by
  simp [normSq, dot]


theorem gram_eq {D : ℕ} (p0 : Pt D) (rest : List (Pt D)) :
    gram p0 rest = (2 : ℚ) • (Matrix.transpose (offMat p0 rest) * offMat p0 rest) := by
  ext i j
  simp only [gram, Matrix.of_apply, Matrix.smul_apply, Matrix.mul_apply,
    Matrix.transpose_apply, offMat, smul_eq_mul]
  change dot (offsets p0 rest i) (offsets p0 rest j) * (1 + 1) =
    2 * dot (offsets p0 rest i) (offsets p0 rest j)
  ring

theorem offMat_mulVec {D : ℕ} (p0 : Pt D) (rest : List (Pt D)) (x : Fin rest.length → ℚ) :
    (offMat p0 rest).mulVec x = ∑ j, x j • offsets p0 rest j := by
  funext d
  simp only [Matrix.mulVec, Matrix.dotProduct, offMat, Matrix.of_apply, Finset.sum_apply,
    Pi.smul_apply, smul_eq_mul]
  exact Finset.sum_congr rfl fun j _ => mul_comm _ _

theorem gram_det_ne_zero_of_linearIndependent {D : ℕ} {p0 : Pt D} {rest : List (Pt D)}
    (hli : LinearIndependent ℚ (offsets p0 rest)) : (gram p0 rest).det ≠ 0 := by
  intro hdet
  obtain ⟨x, hx, hmul⟩ := Matrix.exists_mulVec_eq_zero_iff_aux.mpr hdet
  rw [gram_eq, Matrix.smul_mulVec_assoc] at hmul
  have hM : (Matrix.transpose (offMat p0 rest) * offMat p0 rest).mulVec x = 0 := by
    have := smul_eq_zero.mp hmul
    simpa using this.resolve_left (by norm_num)
  have hAx : (offMat p0 rest).mulVec x = 0 := by
    have h0 : Matrix.dotProduct x
        ((Matrix.transpose (offMat p0 rest) * offMat p0 rest).mulVec x) = 0 := by
      rw [hM, Matrix.dotProduct_zero]
    rw [← Matrix.mulVec_mulVec, Matrix.dotProduct_mulVec, Matrix.vecMul_transpose] at h0
    exact Matrix.dotProduct_self_eq_zero.mp h0
  rw [offMat_mulVec] at hAx
  have := Fintype.linearIndependent_iff.mp hli x hAx
  exact hx (funext fun j => this j)

theorem gram_det_zero_of_not_linearIndependent {D : ℕ} {p0 : Pt D} {rest : List (Pt D)}
    (h : ¬ LinearIndependent ℚ (offsets p0 rest)) : (gram p0 rest).det = 0 := by
  rw [Fintype.linearIndependent_iff] at h
  push_neg at h
  obtain ⟨g, hsum, j, hj⟩ := h
  refine Matrix.exists_mulVec_eq_zero_iff_aux.mp ⟨g, fun hg => hj (congrFun hg j), ?_⟩
  rw [gram_eq, Matrix.smul_mulVec_assoc, ← Matrix.mulVec_mulVec, offMat_mulVec, hsum,
    Matrix.mulVec_zero, smul_zero]

theorem affineIndependent_cons_iff {D : ℕ} (p0 : Pt D) (rest : List (Pt D)) :
    AffineIndependent ℚ (fun i : Fin (rest.length + 1) => (p0 :: rest).get i) ↔
    LinearIndependent ℚ (offsets p0 rest) := by
  rw [affineIndependent_iff_linearIndependent_vsub ℚ
    (fun i : Fin (rest.length + 1) => (p0 :: rest).get i) 0]
  have hcomp : (fun i : {x : Fin (rest.length + 1) // x ≠ 0} =>
      ((p0 :: rest).get i.1 -ᵥ (p0 :: rest).get (0 : Fin (rest.length + 1)) : Pt D)) ∘
      finSuccAboveEquiv 0 =
      offsets p0 rest := by
    funext j
    simp only [Function.comp_apply, finSuccAboveEquiv_apply, Fin.succAbove_zero, vsub_eq_sub,
      List.get_cons_succ, List.get_cons_zero]
    rfl
  exact (linearIndependent_equiv' (finSuccAboveEquiv 0) hcomp).symm

theorem with_bounds_isSome_on_sphere {D : ℕ} (p0 : Pt D) (rest : List (Pt D))
    (hlen : rest.length ≤ D) (hli : LinearIndependent ℚ (offsets p0 rest)) :
    ∃ ball, with_bounds D (p0 :: rest) = some ball ∧
      ∀ p ∈ p0 :: rest, normSq (p - ball.center) = ball.radius_squared := by
  have hdet := gram_det_ne_zero_of_linearIndependent hli
  obtain ⟨M, hM⟩ : ∃ M, tryInverse rest.length (gram p0 rest) = some M := by
    cases h : tryInverse rest.length (gram p0 rest) with
    | none => exact absurd ((tryInverse_eq_none_iff _ _).mp h) hdet
    | some M => exact ⟨M, rfl⟩
  set c := M.mulVec (rhsVec p0 rest) with hc
  set m : Pt D := ∑ j, c j • offsets p0 rest j with hm
  refine ⟨⟨p0 + m, normSq m⟩, ?_, ?_⟩
  · simp only [with_bounds, if_pos hlen, hM, ratIsFinite, if_pos]
  · have hGc : (gram p0 rest).mulVec c = rhsVec p0 rest := tryInverse_mulVec hM _
    intro p hp
    have key : ∀ j : Fin rest.length,
        2 * dot (offsets p0 rest j) m = normSq (offsets p0 rest j) := by
      intro j
      have hj := congrFun hGc j
      simp only [Matrix.mulVec, Matrix.dotProduct, gram, Matrix.of_apply, rhsVec] at hj
      calc 2 * dot (offsets p0 rest j) m
          = 2 * ∑ i, c i * dot (offsets p0 rest j) (offsets p0 rest i) := by
            rw [hm, dot_sum_right]
            congr 1
            exact Finset.sum_congr rfl fun i _ => dot_smul_right _ _ _
        _ = ∑ i, dot (offsets p0 rest j) (offsets p0 rest i) * (1 + 1) * c i := by
            rw [Finset.mul_sum]
            exact Finset.sum_congr rfl fun i _ => by ring
        _ = normSq (offsets p0 rest j) := hj
    rcases List.mem_cons.mp hp with rfl | hp
    · have h0 : p - (p + m) = -m := by funext i; simp
      show normSq (p - (p + m)) = normSq m
      rw [h0, normSq_neg]
    · obtain ⟨j, hj⟩ := List.mem_iff_get.mp hp
      have hdiff : rest.get j - (p0 + m) = offsets p0 rest j - m := by
        funext i
        show rest.get j i - (p0 i + m i) = (rest.get j i - p0 i) - m i
        ring
      show normSq (p - (p0 + m)) = normSq m
      rw [← hj, hdiff, normSq_sub, key j]
      ring

theorem with_bounds_affinely_dependent_none {D : ℕ} (p0 : Pt D) (rest : List (Pt D))
    (h2 : rest.length ≤ D)
    (hdep : ¬ AffineIndependent ℚ (fun i : Fin (p0 :: rest).length => (p0 :: rest).get i)) :
    (gram p0 rest).det = 0 ∧ with_bounds D (p0 :: rest) = none := by
  have hnl : ¬ LinearIndependent ℚ (offsets p0 rest) := fun h =>
    hdep ((affineIndependent_cons_iff p0 rest).mpr h)
  have hdet := gram_det_zero_of_not_linearIndependent hnl
  refine ⟨hdet, ?_⟩
  have hnone := (tryInverse_eq_none_iff rest.length (gram p0 rest)).mpr hdet
  simp only [with_bounds, if_pos h2, hnone]

theorem with_bounds_length_out_of_range {D : ℕ} (bounds : List (Pt D))
    (h : bounds.length = 0 ∨ D + 1 < bounds.length) : with_bounds D bounds = none := by
  match bounds with
  | [] => rfl
  | p0 :: rest =>
    rcases h with h | h
    · simp at h
    · have hlen : ¬ rest.length ≤ D := by
        simp only [List.length_cons] at h
        omega
      simp only [with_bounds, if_neg hlen]

theorem popBack_append_singleton {α : Type} (l : List α) (a : α) :
    popBack (l ++ [a]) = some (l, a) := by
  induction l with
  | nil => rfl
  | cons x l ih =>
    cases l with
    | nil => rfl
    | cons y l' =>
      simp only [List.cons_append] at ih ⊢
      rw [popBack, ih]
      rfl

theorem popBack_eq_append {α : Type} :
    ∀ (l t : List α) (x : α), popBack l = some (t, x) → l = t ++ [x] := by
  intro l
  induction l with
  | nil => intro t x h; cases h
  | cons a l ih =>
    intro t x h
    cases l with
    | nil =>
      rw [popBack] at h
      cases h
      rfl
    | cons b l' =>
      rw [popBack] at h
      cases hpb : popBack (b :: l') with
      | none => rw [hpb] at h; cases h
      | some tx =>
        rw [hpb] at h
        cases h
        rw [ih tx.1 tx.2 hpb]
        rfl

theorem popBack_eq_none_iff {α : Type} (l : List α) : popBack l = none ↔ l = [] := by
  cases l with
  | nil => simp [popBack]
  | cons a l =>
    cases l with
    | nil => simp [popBack]
    | cons b l' =>
      constructor
      · intro h
        rw [popBack] at h
        cases hpb : popBack (b :: l') with
        | none => rw [popBack_eq_none_iff] at hpb; cases hpb
        | some tx => rw [hpb] at h; cases h
      · intro h; cases h

theorem run_nil (D : ℕ) (eps : ℚ) (cap : ℕ) (fuel : ℕ) (bnds : List (Pt D)) :
    run D eps cap fuel [] bnds = (with_bounds D bnds, [], bnds) := by
  cases fuel <;> rfl

theorem run_bounds (D : ℕ) (eps : ℚ) (cap : ℕ) :
    ∀ (fuel : ℕ) (pts bnds : List (Pt D)), (run D eps cap fuel pts bnds).2.2 = bnds := by
  intro fuel
  induction fuel with
  | zero => intro pts bnds; rfl
  | succ fuel ih =>
    intro pts bnds
    rw [run]
    cases hpb : popBack pts with
    | none => rfl
    | some s =>
      obtain ⟨pts', point⟩ := s
      by_cases hf : bnds.length = cap
      · simp only [if_pos hf]
      · simp only [if_neg hf]
        cases hflt : Option.filter (fun ball => contains eps ball point)
            (run D eps cap fuel pts' bnds).1 with
        | some ball => simp only [hflt]; exact ih pts' bnds
        | none =>
          simp only [hflt]
          have h2 := ih (run D eps cap fuel pts' bnds).2.1 ((run D eps cap fuel pts' bnds).2.2 ++ [point])
          rw [ih pts' bnds] at h2 ⊢
          rw [h2, popBack_append_singleton]

theorem run_length (D : ℕ) (eps : ℚ) (cap : ℕ) :
    ∀ (fuel : ℕ) (pts bnds : List (Pt D)),
      (run D eps cap fuel pts bnds).2.1.length ≤ pts.length := by
  intro fuel
  induction fuel with
  | zero => intro pts bnds; exact le_refl _
  | succ fuel ih =>
    intro pts bnds
    rw [run]
    cases hpb : popBack pts with
    | none => exact le_refl _
    | some s =>
      obtain ⟨pts', point⟩ := s
      have hlen : pts.length = pts'.length + 1 := by
        rw [popBack_eq_append pts pts' point hpb]
        simp
      by_cases hf : bnds.length = cap
      · simp only [if_pos hf]
        omega
      · simp only [if_neg hf]
        have h1 := ih pts' bnds
        cases hflt : Option.filter (fun ball => contains eps ball point)
            (run D eps cap fuel pts' bnds).1 with
        | some ball =>
          simp only [hflt, List.length_append, List.length_cons, List.length_nil]
          omega
        | none =>
          simp only [hflt]
          have h2 := ih (run D eps cap fuel pts' bnds).2.1 ((run D eps cap fuel pts' bnds).2.2 ++ [point])
          cases hpb2 : popBack (run D eps cap fuel
              (run D eps cap fuel pts' bnds).2.1
              ((run D eps cap fuel pts' bnds).2.2 ++ [point])).2.2 with
          | some s2 =>
            obtain ⟨bnds', q⟩ := s2
            simp only [List.length_cons]
            omega
          | none =>
            simp only []
            omega

theorem run_fuel_eq (D : ℕ) (eps : ℚ) (cap : ℕ) :
    ∀ (f g : ℕ) (pts bnds : List (Pt D)), pts.length ≤ f → pts.length ≤ g →
      run D eps cap f pts bnds = run D eps cap g pts bnds := by
  intro f
  induction f with
  | zero =>
    intro g pts bnds hf _
    have : pts = [] := List.length_eq_zero.mp (Nat.le_zero.mp hf)
    subst this
    rw [run_nil, run_nil]
  | succ f ih =>
    intro g pts bnds hf hg
    cases hpb : popBack pts with
    | none =>
      have : pts = [] := (popBack_eq_none_iff pts).mp hpb
      subst this
      rw [run_nil, run_nil]
    | some s =>
      obtain ⟨pts', point⟩ := s
      have hlen : pts.length = pts'.length + 1 := by
        rw [popBack_eq_append pts pts' point hpb]
        simp
      cases g with
      | zero => omega
      | succ g =>
        rw [run, run]
        simp only [hpb]
        have hf' : pts'.length ≤ f := by omega
        have hg' : pts'.length ≤ g := by omega
        have e1 : run D eps cap f pts' bnds = run D eps cap g pts' bnds := ih g pts' bnds hf' hg'
        rw [e1]
        by_cases hfull : bnds.length = cap
        · simp only [if_pos hfull]
        · simp only [if_neg hfull]
          cases hflt : Option.filter (fun ball => contains eps ball point)
              (run D eps cap g pts' bnds).1 with
          | some ball => simp only [hflt]
          | none =>
            simp only [hflt]
            have hr1 : (run D eps cap g pts' bnds).2.1.length ≤ pts'.length := by
              have := run_length D eps cap g pts' bnds
              exact this
            have e2 := ih g ((run D eps cap g pts' bnds).2.1)
              ((run D eps cap g pts' bnds).2.2 ++ [point]) (by omega) (by omega)
            rw [e2]

theorem enclosing_points_with_bounds_eq (D : ℕ) (eps : ℚ) (cap : ℕ)
    (pts bnds : List (Pt D)) :
    enclosing_points_with_bounds D eps cap pts bnds =
    match popBack pts with
    | none => (with_bounds D bnds, pts, bnds)
    | some (pts', point) =>
      if bnds.length = cap then
        (with_bounds D bnds, pts', bnds)
      else
        let r1 := enclosing_points_with_bounds D eps cap pts' bnds
        match Option.filter (fun ball => contains eps ball point) r1.1 with
        | some ball => (some ball, r1.2.1 ++ [point], r1.2.2)
        | none =>
          let r2 := enclosing_points_with_bounds D eps cap r1.2.1 (r1.2.2 ++ [point])
          match popBack r2.2.2 with
          | some (bounds', q) => (r2.1, q :: r2.2.1, bounds')
          | none => (r2.1, r2.2.1, []) := by
  rw [enclosing_points_with_bounds]
  cases hpb : popBack pts with
  | none =>
    have : pts = [] := (popBack_eq_none_iff pts).mp hpb
    subst this
    rw [run_nil]
  | some s =>
    obtain ⟨pts', point⟩ := s
    have hlen : pts.length = pts'.length + 1 := by
      rw [popBack_eq_append pts pts' point hpb]
      simp
    rw [hlen, run, hpb]
    by_cases hfull : bnds.length = cap
    · simp only [if_pos hfull]
    · simp only [if_neg hfull]
      have e1 : run D eps cap pts'.length pts' bnds =
          enclosing_points_with_bounds D eps cap pts' bnds := rfl
      rw [e1]
      cases hflt : Option.filter (fun ball => contains eps ball point)
          (enclosing_points_with_bounds D eps cap pts' bnds).1 with
      | some ball => simp only [hflt]
      | none =>
        simp only [hflt]
        have hr1 : (enclosing_points_with_bounds D eps cap pts' bnds).2.1.length ≤
            pts'.length := run_length D eps cap pts'.length pts' bnds
        have e2 : run D eps cap pts'.length
            (enclosing_points_with_bounds D eps cap pts' bnds).2.1
            ((enclosing_points_with_bounds D eps cap pts' bnds).2.2 ++ [point]) =
            enclosing_points_with_bounds D eps cap
            (enclosing_points_with_bounds D eps cap pts' bnds).2.1
            ((enclosing_points_with_bounds D eps cap pts' bnds).2.2 ++ [point]) :=
          run_fuel_eq D eps cap pts'.length _ _ _ hr1 (le_refl _)
        rw [e2]

theorem attempts_ne_invalidInput (D : ℕ) (eps : ℚ) (cap : ℕ) :
    ∀ (n : ℕ) (pts bnds : List (Pt D)),
      attempts D eps cap n pts bnds ≠ .error .invalidInput := by
  intro n
  induction n with
  | zero => intro pts bnds h; cases h
  | succ n ih =>
    intro pts bnds
    rw [attempts]
    cases (enclosing_points_with_bounds D eps cap pts bnds).1 with
    | some ball => intro h; cases h
    | none => exact ih _ _

theorem attemptState_shift (D : ℕ) (eps : ℚ) (cap : ℕ) (pts bnds : List (Pt D)) :
    ∀ k : ℕ, attemptState D eps cap pts bnds (k + 1) =
      attemptState D eps cap
        (enclosing_points_with_bounds D eps cap pts bnds).2.1
        (enclosing_points_with_bounds D eps cap pts bnds).2.2 k := by
  intro k
  induction k with
  | zero => rfl
  | succ k ih => rw [attemptState, ih]; rfl

theorem attempts_eq_error_iff (D : ℕ) (eps : ℚ) (cap : ℕ) :
    ∀ (n : ℕ) (pts bnds : List (Pt D)),
      (attempts D eps cap n pts bnds = .error .numericalInstability ↔
        ∀ k < n, attemptBall D eps cap pts bnds k = none) := by
  intro n
  induction n with
  | zero =>
    intro pts bnds
    exact iff_of_true rfl (fun k hk => absurd hk (Nat.not_lt_zero k))
  | succ n ih =>
    intro pts bnds
    rw [attempts]
    cases hr : (enclosing_points_with_bounds D eps cap pts bnds).1 with
    | some ball =>
      refine iff_of_false (fun h => by cases h) (fun h => ?_)
      have h0 := h 0 (Nat.succ_pos n)
      rw [attemptBall] at h0
      rw [show attemptState D eps cap pts bnds 0 = (pts, bnds) from rfl] at h0
      rw [hr] at h0
      cases h0
    | none =>
      rw [ih]
      constructor
      · intro h k hk
        cases k with
        | zero =>
          rw [attemptBall]
          rw [show attemptState D eps cap pts bnds 0 = (pts, bnds) from rfl]
          exact hr
        | succ k =>
          rw [attemptBall, attemptState_shift]
          exact h k (Nat.lt_of_succ_lt_succ hk)
      · intro h k hk
        have := h (k + 1) (Nat.succ_lt_succ hk)
        rw [attemptBall, attemptState_shift] at this
        exact this

theorem except_map_eq_error_iff {e a b : Type} (f : a → b) (x : Except e a) (err : e) :
    x.map f = .error err ↔ x = .error err := by
  cases x with
  | ok v => simp [Except.map]
  | error v => simp [Except.map]

/-- C1: the claim states that every point originally in the sequence ends up
inside the returned ball (`distance_squared(p, center) ≤ radius_squared` over
an exact scalar field).  The code violates this: on `c1pts` the call returns
a ball, but the original point `(2, 0)` — silently discarded by
`points.pop_back().filter(|_| !bounds.is_full())` when the accumulator was
full — lies strictly outside it (squared distance `353/98 > 325/98`) and is
gone from the returned sequence. -/
theorem enclosing_points_drops_uncovered_point :
    (enclosing_points 2 0 c1pts).map
      (fun r => ((coords r.1.center, r.1.radius_squared), r.2.map coords)) =
      .ok (([19 / 14, 25 / 14], 325 / 98), [[0, 3], [1, 0], [3, 1], [1, 2]]) ∧
    q2 2 0 ∈ c1pts ∧
    (enclosing_points 2 0 c1pts).map
      (fun r => decide (r.1.radius_squared < normSq (q2 2 0 - r.1.center)) &&
        decide (q2 2 0 ∉ r.2)) = .ok true := by
  decide

/-- C2: the claim states that a top-level call conserves the multiset of
points (length in particular).  The code violates this: on the three-point
sequence `c2pts` the call succeeds but returns a two-point sequence — the
point `1` was popped and discarded by
`points.pop_back().filter(|_| !bounds.is_full())` while the accumulator was
full. -/
theorem enclosing_points_destroys_point :
    (enclosing_points 1 0 c2pts).map
      (fun r => ((coords r.1.center, r.1.radius_squared), r.2.map coords)) =
      .ok (([1], 1), [[2], [0]]) ∧
    c2pts.length = 3 ∧
    (enclosing_points 1 0 c2pts).map (fun r => r.2.length) = .ok 2 := by
  decide

/-- C3: `with_bounds` on `1 ≤ k ≤ D + 1` affinely independent points returns
a ball with every input point at exact squared distance `radius_squared`
from the center. -/
theorem with_bounds_affinely_independent_on_sphere {D : ℕ} (bounds : List (Pt D))
    (h1 : 1 ≤ bounds.length) (h2 : bounds.length ≤ D + 1)
    (hai : AffineIndependent ℚ (fun i : Fin bounds.length => bounds.get i)) :
    ∃ ball, with_bounds D bounds = some ball ∧
      ∀ p ∈ bounds, normSq (p - ball.center) = ball.radius_squared := by
  match bounds with
  | [] => exact absurd h1 (by simp)
  | p0 :: rest =>
    have hlen : rest.length ≤ D := by
      simp only [List.length_cons] at h2
      omega
    exact with_bounds_isSome_on_sphere p0 rest hlen
      ((affineIndependent_cons_iff p0 rest).mp hai)

/-- Witness for C3: a single bound point yields its degenerate ball, on
whose surface the point lies exactly. -/
theorem with_bounds_affinely_independent_on_sphere_witness :
    ∃ ball, with_bounds 1 [q1 3] = some ball ∧
      ∀ p ∈ [q1 3], normSq (p - ball.center) = ball.radius_squared :=
  with_bounds_affinely_independent_on_sphere [q1 3] (by simp) (by simp)
    ((affineIndependent_cons_iff (q1 3) []).mpr
      (by
        haveI : IsEmpty (Fin ([] : List (Pt 1)).length) := inferInstanceAs (IsEmpty (Fin 0))
        exact linearIndependent_empty_type))

/-- C4, counterexample: the claim describes the retry loop as stepping the
accumulator capacity down (`D+1, D, …, 0`).  The source loop
`(0..bounds.capacity()).find_map(|_| …)` ignores its index and reuses the
same capacity `D + 1` every time: on the duplicated pair `c4pts` the actual
driver exhausts its attempts and fails with `NumericalInstability`, while
the stepped-capacity driver described by the claim would succeed with the
degenerate ball around `0`. -/
theorem enclosing_points_fixed_capacity_ne_spec_stepped :
    enclosing_points 1 0 c4pts = .error .numericalInstability ∧
    (spec_enclosing_points 1 0 c4pts).map
      (fun r => ((coords r.1.center, r.1.radius_squared), r.2.map coords)) =
      .ok (([0], 0), [[0]]) := by
  decide

/-- C4, amended: on a non-empty sequence the driver performs `D + 1`
attempts, each at the unchanged capacity `D + 1` on the sequence as permuted
by the previous failed attempt; its only failure mode is the fatal
`NumericalInstability`, reached exactly when all `D + 1` attempts yield no
ball — it never returns an approximate ball instead. -/
theorem enclosing_points_instability_characterization (D : ℕ) (eps : ℚ)
    (pts : List (Pt D)) (h : pts ≠ []) :
    (∀ e, enclosing_points D eps pts = .error e → e = .numericalInstability) ∧
    (enclosing_points D eps pts = .error .numericalInstability ↔
      ∀ k < D + 1, attemptBall D eps (D + 1) pts [] k = none) := by
  have hne : pts.isEmpty = false := by
    cases pts with
    | nil => exact absurd rfl h
    | cons a l => rfl
  rw [enclosing_points, hne]
  simp only [Bool.false_eq_true, if_false]
  constructor
  · intro e he
    rw [except_map_eq_error_iff] at he
    cases e with
    | invalidInput => exact absurd he (attempts_ne_invalidInput D eps (D + 1) (D + 1) pts [])
    | numericalInstability => rfl
  · rw [except_map_eq_error_iff]
    exact attempts_eq_error_iff D eps (D + 1) (D + 1) pts []

/-- Witness for C4 (amended), at the singleton sequence `[0]` in dimension
one: the hypotheses hold and both sides of the characterization are false
(the single attempt succeeds). -/
theorem enclosing_points_instability_characterization_witness :
    ([q1 0] ≠ ([] : List (Pt 1))) ∧
    ((∀ e, enclosing_points 1 0 [q1 0] = .error e → e = .numericalInstability) ∧
      (enclosing_points 1 0 [q1 0] = .error .numericalInstability ↔
        ∀ k < 1 + 1, attemptBall 1 0 (1 + 1) [q1 0] [] k = none)) :=
  ⟨by simp, enclosing_points_instability_characterization 1 0 [q1 0] (by simp)⟩

/-- C5: on `2` to `D + 1` affinely dependent points the Gram matrix is
singular, so the inversion fails and `with_bounds` returns `None`. -/
theorem with_bounds_affinely_dependent_singular {D : ℕ} (p0 : Pt D) (rest : List (Pt D))
    (_h1 : 1 ≤ rest.length) (h2 : rest.length ≤ D)
    (hdep : ¬ AffineIndependent ℚ (fun i : Fin (rest.length + 1) => (p0 :: rest).get i)) :
    (gram p0 rest).det = 0 ∧ with_bounds D (p0 :: rest) = none :=
  with_bounds_affinely_dependent_none p0 rest h2 hdep

/-- Witness for C5: a duplicated point in dimension one. -/
theorem with_bounds_affinely_dependent_singular_witness :
    (gram (q1 0) [q1 0]).det = 0 ∧ with_bounds 1 [q1 0, q1 0] = none :=
  with_bounds_affinely_dependent_singular (q1 0) [q1 0] (by simp) (by simp)
    (fun h => by
      have h01 : (0 : Fin ([q1 0].length + 1)) = 1 := h.injective rfl
      exact absurd h01 (by decide))

/-- C6: `with_bounds` on an input of length `0` or greater than `D + 1`
returns `None` immediately (the guard fails before any linear solve). -/
theorem with_bounds_length_guard {D : ℕ} (bounds : List (Pt D))
    (h : bounds.length = 0 ∨ D + 1 < bounds.length) : with_bounds D bounds = none :=
  with_bounds_length_out_of_range bounds h

/-- Witness for C6, at both an empty input and an overlong input. -/
theorem with_bounds_length_guard_witness :
    with_bounds 1 [] = none ∧ with_bounds 1 [q1 0, q1 1, q1 2, q1 3] = none :=
  ⟨with_bounds_length_guard [] (Or.inl rfl),
   with_bounds_length_guard [q1 0, q1 1, q1 2, q1 3] (Or.inr (by simp))⟩

/-- C7: `enclosing_points` fails with `InvalidInput` (the
`assert!(!points.is_empty())` panic) exactly when the sequence is empty. -/
theorem enclosing_points_invalid_input_iff_empty (D : ℕ) (eps : ℚ) (pts : List (Pt D)) :
    enclosing_points D eps pts = .error .invalidInput ↔ pts = [] := by
  constructor
  · intro h
    cases hp : pts with
    | nil => rfl
    | cons a l =>
      subst hp
      rw [enclosing_points] at h
      simp only [List.isEmpty_cons, Bool.false_eq_true, if_false] at h
      rw [except_map_eq_error_iff] at h
      exact absurd h (attempts_ne_invalidInput D eps (D + 1) (D + 1) _ [])
  · intro h
    subst h
    rfl

/-- C8, counterexample: the claim states that `contains` fails with an
assertion whenever invoked with a non-finite `radius_squared`.  The source
only asserts on the squared distance to the point: with an infinite radius
and a finite point the call returns a boolean (`+∞ ≥ 1 − ε` is true).  The
epsilon is `2⁻²⁶`, the exact value of `f64::EPSILON.sqrt()`. -/
theorem contains_nonfinite_radius_returns_boolean :
    FlBall.contains (1 / 67108864) c8ball (fun _ => .fin 1) = .ok true := by
  decide

/-- C8, amended: `contains` fails with the `"infinite point"` assertion
exactly when the squared distance from the point to the center is
non-finite; a non-finite `radius_squared` alone does not prevent it from
returning a boolean. -/
theorem contains_asserts_iff_nonfinite_distance {D : ℕ} (eps : ℚ) (b : FlBall D)
    (point : FlPt D) :
    FlBall.contains eps b point = .error ("infinite point") ↔
      (flNormSq fun i => Fl.sub (point i) (b.center i)).is_finite = false := by
  cases hfin : (flNormSq fun i => Fl.sub (point i) (b.center i)).is_finite with
  | true => simp [FlBall.contains, hfin]
  | false => simp [FlBall.contains, hfin]

/-- C9: every call of the recursive helper returns the boundary accumulator
exactly as it received it (every push is matched by a pop on every return
path), so each attempt of the top-level retry loop starts from an empty
accumulator. -/
theorem enclosing_points_with_bounds_restores_accumulator (D : ℕ) (eps : ℚ) (cap : ℕ)
    (pts bnds : List (Pt D)) :
    (enclosing_points_with_bounds D eps cap pts bnds).2.2 = bnds ∧
    ∀ k, (attemptState D eps cap pts [] k).2 = [] := by
  refine ⟨run_bounds D eps cap pts.length pts bnds, ?_⟩
  intro k
  induction k with
  | zero => rfl
  | succ k ih =>
    rw [attemptState]
    show (enclosing_points_with_bounds D eps cap _ _).2.2 = []
    rw [enclosing_points_with_bounds, run_bounds]
    exact ih

/-- C10: `PartialEq::eq` and `Ord::cmp` of finite-radius balls depend only
on `radius_squared` and ignore the centers entirely: equality holds exactly
when the radii agree, and `cmp` is the order of the radii. -/
theorem ball_eq_cmp_by_radius_only {D : ℕ} (c1 c2 : FlPt D) (r1 r2 : ℚ) :
    (FlBall.eq ⟨c1, .fin r1⟩ ⟨c2, .fin r2⟩ = .ok true ↔ r1 = r2) ∧
    FlBall.cmp ⟨c1, .fin r1⟩ ⟨c2, .fin r2⟩ = .ok (cmp r1 r2) := by
  constructor
  · simp [FlBall.eq, Fl.is_finite, Fl.beq]
  · simp [FlBall.cmp, Fl.cmpOpt]

end Miniball
